import Mathlib

/-!
Verification of the document-to-context reduction pipeline of StudyPDF
(`app.py`): token estimation, text chunking, relevance ranking,
progressive summarization, prompt building and strategy selection.

Python strings are modelled as `List Char`.  The external completion
collaborator (`call_groq`) is modelled as an explicit parameter
`f : List Char → Except (List Char) (List Char)` (prompt in, answer out,
or a failure carrying its message text); `process_large_document` and
`progressive_summarize` additionally report the number of completion
calls they make, so that invocation-count properties can be stated.
-/

/-- Python strings are modelled as lists of characters. -/
abbrev Str := List Char

/-- Coerce a Lean string literal into the model type. -/
def strL (s : String) : Str := s.data

/-- The whitespace class used by Python `str.split()` and `str.strip()`
(ASCII fragment). -/
def pyWS (c : Char) : Bool :=
  c = ' ' || c = '\t' || c = '\n' || c = '\r' || c = '\x0b' || c = '\x0c'

/-- The word-character class of the regex `\w` (ASCII fragment). -/
def isWordChar (c : Char) : Bool := c.isAlphanum || c = '_'

/-- Python `str.lower()` (ASCII). -/
def lowerStr (s : Str) : Str := s.map Char.toLower

/-- Splitting on a character class with empty fields dropped: the engine
behind Python's argumentless `str.split()` and behind `re.findall` of
maximal `\w`-runs. -/
def splitPAux (sep : Char → Bool) : Str → Str → List Str
  | [], acc => if acc = [] then [] else [acc]
  | c :: cs, acc =>
    if sep c then
      if acc = [] then splitPAux sep cs [] else acc :: splitPAux sep cs []
    else splitPAux sep cs (acc ++ [c])

/-- Split a string on a character class, dropping empty fields. -/
def splitP (sep : Char → Bool) (s : Str) : List Str := splitPAux sep s []

/-- Python `text.split()`. -/
def pySplit (s : Str) : List Str := splitP pyWS s

/-- Python `text.split('\n\n')`: split on the literal two-newline
separator, non-overlapping and leftmost-first, keeping empty fields (as
`str.split` with an argument does). -/
def splitNNAux : Str → Str → List Str
  | '\n' :: '\n' :: rest, acc => acc :: splitNNAux rest []
  | c :: cs, acc => splitNNAux cs (acc ++ [c])
  | [], acc => [acc]

/-- Split a string on blank-line (`"\n\n"`) boundaries. -/
def splitNN (s : Str) : List Str := splitNNAux s []

/-- Python `str.strip()`: remove leading and trailing whitespace. -/
def pyStrip (s : Str) : Str := ((s.dropWhile pyWS).reverse.dropWhile pyWS).reverse

/-- Python `sep.join(xs)`. -/
def joinWith (sep : Str) : List Str → Str
  | [] => []
  | [x] => x
  | x :: y :: rest => x ++ sep ++ joinWith sep (y :: rest)

/-- The blank-line separator `"\n\n"`. -/
def nl2 : Str := strL "\n\n"

/-- `estimate_tokens` from `app.py`: `len(text) // 4`. -/
def estimate_tokens (text : Str) : Nat := text.length / 4

/-- The loop of `chunk_text`: greedily accumulate whitespace-split words
into the current chunk; a word whose cost (its length plus one separating
space) would push the running length over `max_chars` closes the current
chunk, provided that chunk is non-empty, and starts a new one. -/
def chunkLoop (max_chars : Nat) : List Str → List Str → Nat → List Str
  | [], current_chunk, _ =>
    if current_chunk = [] then [] else [joinWith (strL " ") current_chunk]
  | word :: words, current_chunk, current_length =>
    if max_chars < current_length + (word.length + 1) ∧ current_chunk ≠ [] then
      joinWith (strL " ") current_chunk ::
        chunkLoop max_chars words [word] (word.length + 1)
    else
      chunkLoop max_chars words (current_chunk ++ [word])
        (current_length + (word.length + 1))

/-- `chunk_text` from `app.py`. -/
def chunk_text (text : Str) (max_tokens : Nat) : List Str :=
  chunkLoop (max_tokens * 4) (pySplit text) [] 0

/-- Auxiliary for `countSub`: count non-overlapping occurrences of a
pattern, advancing past each match (Python `str.count` semantics for a
non-empty needle).  The fuel argument only forces structural recursion:
every step consumes at least one character of the haystack, so starting
the fuel at the haystack's length never cuts the count short. -/
def countSubFuel (pat : Str) : Nat → Str → Nat
  | 0, _ => 0
  | _, [] => 0
  | fuel + 1, c :: cs =>
    if pat.isPrefixOf (c :: cs) then
      countSubFuel pat fuel (cs.drop (pat.length - 1)) + 1
    else countSubFuel pat fuel cs

/-- Python `haystack.count(needle)`: non-overlapping occurrence count (an
empty needle is counted `len + 1` times, as in Python). -/
def countSub (pat s : Str) : Nat :=
  if pat = [] then s.length + 1 else countSubFuel pat s.length s

/-- Python substring containment, `needle in haystack`. -/
def hasSub (pat : Str) : Str → Bool
  | [] => pat.isPrefixOf []
  | c :: cs => pat.isPrefixOf (c :: cs) || hasSub pat cs

/-- Python `haystack.find(needle)`: index of the first occurrence. -/
def pyFind (pat : Str) : Str → Option Nat
  | [] => if pat.isPrefixOf [] then some 0 else none
  | c :: cs =>
    if pat.isPrefixOf (c :: cs) then some 0
    else (pyFind pat cs).map (· + 1)

/-- The query terms of `find_relevant_context`: maximal `\w`-runs of the
lower-cased query, keeping only terms longer than 3 characters. -/
def queryWordsOf (query : Str) : List Str :=
  (splitP (fun c => !isWordChar c) (lowerStr query)).filter (fun w => 3 < w.length)

/-- Paragraph score: summed case-insensitive substring counts of the query
terms (the paragraph is lower-cased; the terms already are). -/
def paraScore (queryWords : List Str) (para : Str) : Nat :=
  (queryWords.map (fun w => countSub w (lowerStr para))).sum

/-- The scored-paragraph list of `find_relevant_context`, in document
order: blank-line-separated paragraphs, stripped, empties dropped, each
scored against the query terms, keeping only positive scores. -/
def scoredParagraphs (text query : Str) : List (Nat × Str) :=
  let paragraphs := ((splitNN text).map pyStrip).filter (fun p => !p.isEmpty)
  (paragraphs.map (fun p => (paraScore (queryWordsOf query) p, p))).filter
    (fun sp => decide (0 < sp.1))

/-- Insert into a descending-sorted list, after every element with a
strictly greater key: the placement a stable descending sort gives a new
element relative to an already-sorted rest. -/
def insertDesc (x : Nat × Str) : List (Nat × Str) → List (Nat × Str)
  | [] => [x]
  | y :: ys => if x.1 < y.1 then y :: insertDesc x ys else x :: y :: ys

/-- Python's `scored_paragraphs.sort(key=lambda x: x[0], reverse=True)`:
`list.sort` is stable, so it is modelled by a stable insertion sort,
descending by score. -/
def sortDesc : List (Nat × Str) → List (Nat × Str)
  | [] => []
  | x :: xs => insertDesc x (sortDesc xs)

/-- The greedy assembly loop of `find_relevant_context`: append a scored
paragraph (followed by a blank line) while the running character length
stays strictly below `max_chars`; break at the first paragraph that does
not fit. -/
def ctxLoop (max_chars : Nat) : List (Nat × Str) → Str → Str
  | [], context => context
  | sp :: rest, context =>
    if context.length + sp.2.length + 2 < max_chars then
      ctxLoop max_chars rest (context ++ sp.2 ++ nl2)
    else context

/-- `find_relevant_context` from `app.py`. -/
def find_relevant_context (text query : Str) (max_tokens : Nat) : Str :=
  let context := ctxLoop (max_tokens * 4) (sortDesc (scoredParagraphs text query)) []
  let context2 :=
    if pyStrip context = [] then
      match chunk_text text max_tokens with
      | [] => text.take (max_tokens * 4)
      | c :: _ => c
    else context
  pyStrip context2

/-- The per-section summarization prompt of `progressive_summarize`. -/
def sumPrompt (chunk : Str) : Str :=
  strL "Summarize this section concisely. Focus on key points.\n\n" ++ chunk ++
    strL "\n\nSummary:"

/-- Decimal rendering of a natural number, for the section labels. -/
def natStr (n : Nat) : Str := (Nat.repr n).data

/-- One labelled section of the combined digest: the summary on success,
the inline error marker (carrying the caught failure's message text) on
failure. -/
def sectionFor (i : Nat) : Except Str Str → Str
  | Except.ok summary => strL "**Section " ++ natStr (i + 1) ++ strL ":**\n" ++ summary
  | Except.error e => strL "**Section " ++ natStr (i + 1) ++ strL ":** Error - " ++ e

/-- The enumerated loop of `progressive_summarize`, also counting the
completion calls made (exactly one per chunk, success or failure). -/
def progLoop (f : Str → Except Str Str) : Nat → List Str → List Str × Nat
  | _, [] => ([], 0)
  | i, chunk :: rest =>
    let r := progLoop f (i + 1) rest
    (sectionFor i (f (sumPrompt chunk)) :: r.1, r.2 + 1)

/-- `progressive_summarize` from `app.py` (the `mode` argument is accepted
and unused, exactly as in the source), paired with the number of
completion calls made. -/
def progressive_summarize (f : Str → Except Str Str) (text_chunks : List Str)
    (mode : Str) : Str × Nat :=
  (joinWith nl2 (progLoop f 0 text_chunks).1, (progLoop f 0 text_chunks).2)

/-- The mode-instruction table of `build_academic_prompt` (a `dict.get`
with default `""`). -/
def modeInstr (mode : Str) : Str :=
  if mode = strL "Homework / Problem" then
    strL "Explain step-by-step. Give clear answers."
  else if mode = strL "Research Paper" then
    strL "Summarize methods, results, limitations precisely."
  else if mode = strL "Lecture / Notes" then
    strL "Extract key points. Explain simply with examples."
  else if mode = strL "Flashcards" then
    strL "Generate short Q&A flashcards."
  else []

/-- The note appended when the context is a reduction of the document. -/
def noteStr : Str := strL "\n[Note: Excerpt from larger document]"

/-- `build_academic_prompt` from `app.py`. -/
def build_academic_prompt (mode context query : Str) (is_summary : Bool) : Str :=
  let instruction := modeInstr mode
  let context_note := if is_summary then noteStr else []
  strL "You are StudyPDF. " ++ instruction ++ strL "\n\nContext: " ++ context ++
    context_note ++ strL "\n\nQuestion: " ++ query ++ strL "\n\nAnswer:"

/-- The summarization keywords of `process_large_document`. -/
def summaryKeywords : List Str :=
  [strL "summarize", strL "summary", strL "overview", strL "flashcard"]

/-- The keyword test `any(keyword in query.lower() for keyword in ...)`. -/
def isSummaryQuery (query : Str) : Bool :=
  summaryKeywords.any (fun k => hasSub k (lowerStr query))

/-- `process_large_document` from `app.py`, with the completion
collaborator `f` passed explicitly.  It returns the `(answer, was_reduced)`
pair (or the propagated completion failure) together with the number of
completion calls made. -/
def process_large_document (f : Str → Except Str Str) (full_text query mode : Str) :
    Except Str (Str × Bool) × Nat :=
  let estimated_tokens := estimate_tokens full_text
  if estimated_tokens ≤ 3500 then
    ((f (build_academic_prompt mode full_text query false)).map (fun a => (a, false)), 1)
  else if isSummaryQuery query then
    let chunks0 := chunk_text full_text 3500
    let chunks := if 5 < chunks0.length then chunks0.take 5 else chunks0
    let s := progressive_summarize f chunks mode
    ((f (build_academic_prompt mode s.1 query true)).map (fun a => (a, true)), s.2 + 1)
  else
    ((f (build_academic_prompt mode (find_relevant_context full_text query 3500)
        query true)).map (fun a => (a, true)), 1)

/-! ## Lemmas about splitting and joining -/

/-- Every field produced by `splitPAux` is non-empty and free of separator
characters, provided the accumulator already is. -/
lemma splitPAux_good (sep : Char → Bool) :
    ∀ (s acc : Str), (∀ c ∈ acc, sep c = false) →
      ∀ w ∈ splitPAux sep s acc, w ≠ [] ∧ ∀ c ∈ w, sep c = false := by
  intro s
  induction s with
  | nil =>
    intro acc hacc w hw
    simp only [splitPAux] at hw
    split at hw
    · simp at hw
    · next hne =>
      simp only [List.mem_singleton] at hw
      subst hw
      exact ⟨hne, hacc⟩
  | cons c cs ih =>
    intro acc hacc w hw
    simp only [splitPAux] at hw
    by_cases hc : sep c = true
    · simp only [hc, if_true] at hw
      by_cases ha : acc = []
      · simp only [ha, if_true] at hw
        exact ih [] (by simp) w hw
      · simp only [ha, if_false] at hw
        rcases List.mem_cons.mp hw with h | h
        · subst h
          exact ⟨ha, hacc⟩
        · exact ih [] (by simp) w h
    · simp only [hc, if_false] at hw
      refine ih (acc ++ [c]) ?_ w hw
      intro d hd
      rcases List.mem_append.mp hd with h | h
      · exact hacc d h
      · simp only [List.mem_singleton] at h
        subst h
        simpa using hc

/-- Every word of `pySplit` is non-empty and whitespace-free. -/
lemma pySplit_good (s : Str) :
    ∀ w ∈ pySplit s, w ≠ [] ∧ ∀ c ∈ w, pyWS c = false :=
  splitPAux_good pyWS s [] (by simp)

/-- A separator-free block passes through `splitPAux` into the
accumulator. -/
lemma splitPAux_append (sep : Char → Bool) :
    ∀ (w : Str), (∀ c ∈ w, sep c = false) →
      ∀ (rest acc : Str), splitPAux sep (w ++ rest) acc = splitPAux sep rest (acc ++ w) := by
  intro w
  induction w with
  | nil => intro _ rest acc; simp
  | cons c cs ih =>
    intro hgood rest acc
    have hc : sep c = false := hgood c (List.mem_cons_self c cs)
    have ih' := ih (fun d hd => hgood d (List.mem_cons_of_mem c hd)) rest (acc ++ [c])
    simp only [List.cons_append, splitPAux, hc, Bool.false_eq_true, if_false]
    simpa [List.append_assoc] using ih'

/-- A separator character flushes a non-empty accumulator. -/
lemma splitPAux_sep (sep : Char → Bool) (c : Char) (hc : sep c = true)
    (rest acc : Str) (hacc : acc ≠ []) :
    splitPAux sep (c :: rest) acc = acc :: splitPAux sep rest [] := by
  simp only [splitPAux, hc, if_true]
  rw [if_neg hacc]

/-- Joining over a split of two non-empty groups. -/
lemma joinWith_append (sep : Str) :
    ∀ (xs ys : List Str), xs ≠ [] → ys ≠ [] →
      joinWith sep (xs ++ ys) = joinWith sep xs ++ sep ++ joinWith sep ys := by
  intro xs
  induction xs with
  | nil => intro ys h; exact absurd rfl h
  | cons x xs ih =>
    intro ys _ hys
    cases xs with
    | nil =>
      cases ys with
      | nil => exact absurd rfl hys
      | cons y ys => simp [joinWith]
    | cons x' xs' =>
      have h2 := ih ys (by simp) hys
      simp only [List.cons_append] at h2 ⊢
      have hx : joinWith sep (x :: x' :: (xs' ++ ys)) =
          x ++ sep ++ joinWith sep (x' :: (xs' ++ ys)) := rfl
      have hx2 : joinWith sep (x :: x' :: xs') =
          x ++ sep ++ joinWith sep (x' :: xs') := rfl
      rw [hx, hx2, h2]
      simp [List.append_assoc]

/-- Splitting the space-join of good words recovers exactly those words. -/
lemma pySplit_joinWith (ws : List Str)
    (h : ∀ w ∈ ws, w ≠ [] ∧ ∀ c ∈ w, pyWS c = false) :
    pySplit (joinWith (strL " ") ws) = ws := by
  induction ws with
  | nil => rfl
  | cons w ws ih =>
    have hw := h w (List.mem_cons_self w ws)
    cases ws with
    | nil =>
      show splitPAux pyWS (joinWith (strL " ") [w]) [] = [w]
      have : joinWith (strL " ") [w] = w ++ [] := by simp [joinWith]
      rw [this, splitPAux_append pyWS w hw.2 [] []]
      simp [splitPAux, hw.1]
    | cons w' ws' =>
      have hrest : ∀ x ∈ w' :: ws', x ≠ [] ∧ ∀ c ∈ x, pyWS c = false :=
        fun x hx => h x (List.mem_cons_of_mem w hx)
      have hsp : strL " " = [' '] := rfl
      have hj : joinWith (strL " ") (w :: w' :: ws') =
          w ++ (' ' :: joinWith (strL " ") (w' :: ws')) := by
        show w ++ strL " " ++ joinWith (strL " ") (w' :: ws') = _
        rw [hsp, List.append_assoc]
        rfl
      show splitPAux pyWS (joinWith (strL " ") (w :: w' :: ws')) [] = w :: w' :: ws'
      rw [hj, splitPAux_append pyWS w hw.2 _ [], List.nil_append,
        splitPAux_sep pyWS ' ' (by decide) _ w hw.1]
      exact congrArg (w :: ·) (ih hrest)

/-! ## Lemmas about chunking -/

/-- Proof-side mirror of `chunkLoop`, producing each chunk as its list of
words instead of as a space-joined string. -/
def chunkLoopW (max_chars : Nat) : List Str → List Str → Nat → List (List Str)
  | [], current_chunk, _ => if current_chunk = [] then [] else [current_chunk]
  | word :: words, current_chunk, current_length =>
    if max_chars < current_length + (word.length + 1) ∧ current_chunk ≠ [] then
      current_chunk :: chunkLoopW max_chars words [word] (word.length + 1)
    else
      chunkLoopW max_chars words (current_chunk ++ [word])
        (current_length + (word.length + 1))

/-- `chunkLoop` is the space-join of the chunks `chunkLoopW` produces. -/
lemma chunkLoop_eq_map (mc : Nat) :
    ∀ (ws cur : List Str) (len : Nat),
      chunkLoop mc ws cur len = (chunkLoopW mc ws cur len).map (joinWith (strL " ")) := by
  intro ws
  induction ws with
  | nil =>
    intro cur len
    simp only [chunkLoop, chunkLoopW]
    split
    · simp
    · simp
  | cons w ws ih =>
    intro cur len
    simp only [chunkLoop, chunkLoopW]
    split
    · simp [ih]
    · exact ih _ _

/-- The chunks of `chunkLoopW` cover exactly the accumulator followed by
the remaining words, in order. -/
lemma chunkLoopW_flatten (mc : Nat) :
    ∀ (ws cur : List Str) (len : Nat),
      (chunkLoopW mc ws cur len).flatten = cur ++ ws := by
  intro ws
  induction ws with
  | nil =>
    intro cur len
    simp only [chunkLoopW]
    split
    · next h => simp [h]
    · simp
  | cons w ws ih =>
    intro cur len
    simp only [chunkLoopW]
    split
    · simp [ih]
    · simp [ih, List.append_assoc]

/-- No chunk of `chunkLoopW` is empty. -/
lemma chunkLoopW_ne_nil (mc : Nat) :
    ∀ (ws cur : List Str) (len : Nat), ∀ p ∈ chunkLoopW mc ws cur len, p ≠ [] := by
  intro ws
  induction ws with
  | nil =>
    intro cur len p hp
    simp only [chunkLoopW] at hp
    split at hp
    · simp at hp
    · next h =>
      simp only [List.mem_singleton] at hp
      subst hp
      exact h
  | cons w ws ih =>
    intro cur len p hp
    simp only [chunkLoopW] at hp
    split at hp
    · next h =>
      rcases List.mem_cons.mp hp with h' | h'
      · subst h'
        exact h.2
      · exact ih _ _ _ h'
    · exact ih _ _ _ hp

/-- Total character cost of a word list as `chunkLoop` counts it: each
word's length plus one separating space. -/
def sumLen (ws : List Str) : Nat := (ws.map (fun w => w.length + 1)).sum

/-- Every chunk of `chunkLoopW` either fits the character budget (counting
one space per word) or consists of a single word, given that the incoming
accumulator state is well-formed in the same sense. -/
lemma chunkLoopW_size (mc : Nat) :
    ∀ (ws cur : List Str) (len : Nat),
      (cur = [] ∧ len = 0 ∨ cur ≠ [] ∧ len = sumLen cur ∧ (len ≤ mc ∨ cur.length = 1)) →
      ∀ p ∈ chunkLoopW mc ws cur len, sumLen p ≤ mc ∨ p.length = 1 := by
  intro ws
  induction ws with
  | nil =>
    intro cur len hinv p hp
    simp only [chunkLoopW] at hp
    split at hp
    · simp at hp
    · next h =>
      simp only [List.mem_singleton] at hp
      subst hp
      rcases hinv with ⟨h1, _⟩ | ⟨_, h2, h3⟩
      · exact absurd h1 h
      · rwa [h2] at h3
  | cons w ws ih =>
    intro cur len hinv p hp
    simp only [chunkLoopW] at hp
    split at hp
    · next h =>
      rcases List.mem_cons.mp hp with h' | h'
      · subst h'
        rcases hinv with ⟨h1, _⟩ | ⟨_, h2, h3⟩
        · exact absurd h1 h.2
        · rwa [h2] at h3
      · refine ih [w] (w.length + 1) ?_ p h'
        exact Or.inr ⟨by simp, by simp [sumLen], Or.inr rfl⟩
    · next h =>
      rcases hinv with ⟨h1, h2⟩ | ⟨h1, h2, h3⟩
      · subst h1 h2
        refine ih [w] (0 + (w.length + 1)) ?_ p hp
        exact Or.inr ⟨by simp, by simp [sumLen], Or.inr rfl⟩
      · have hle : len + (w.length + 1) ≤ mc := by
          rcases not_and_or.mp h with h' | h'
          · omega
          · exact (h' h1).elim
        refine ih (cur ++ [w]) (len + (w.length + 1)) ?_ p hp
        refine Or.inr ⟨by simp, ?_, Or.inl hle⟩
        simp [sumLen, h2]

/-- Length of the space-join of a non-empty word list: one less than its
`sumLen` cost. -/
lemma joinWith_space_length :
    ∀ (p : List Str), p ≠ [] → (joinWith (strL " ") p).length + 1 = sumLen p := by
  intro p
  induction p with
  | nil => intro h; exact absurd rfl h
  | cons w ws ih =>
    intro _
    cases ws with
    | nil => simp [joinWith, sumLen]
    | cons w' ws' =>
      have hx : joinWith (strL " ") (w :: w' :: ws') =
          w ++ strL " " ++ joinWith (strL " ") (w' :: ws') := rfl
      have := ih (by simp)
      simp only [hx, List.length_append, sumLen, List.map_cons, List.sum_cons] at *
      have hsp : (strL " ").length = 1 := rfl
      omega

/-- Space-joining per-chunk joins equals one flat space-join, when every
chunk is non-empty. -/
lemma joinWith_map_flatten :
    ∀ (parts : List (List Str)), (∀ p ∈ parts, p ≠ []) →
      joinWith (strL " ") (parts.map (joinWith (strL " "))) =
        joinWith (strL " ") parts.flatten := by
  intro parts
  induction parts with
  | nil => intro _; rfl
  | cons p parts ih =>
    intro h
    have hp := h p (List.mem_cons_self p parts)
    cases parts with
    | nil => simp [joinWith]
    | cons q parts' =>
      have hq := h q (List.mem_cons_of_mem p (List.mem_cons_self q parts'))
      have hrest : ∀ x ∈ q :: parts', x ≠ [] :=
        fun x hx => h x (List.mem_cons_of_mem p hx)
      have hflat : (q :: parts').flatten ≠ [] := by
        simp only [List.flatten_cons]
        intro hcontra
        exact hq (List.append_eq_nil.mp hcontra).1
      have hstep : joinWith (strL " ")
          ((p :: q :: parts').map (joinWith (strL " "))) =
          joinWith (strL " ") p ++ strL " " ++
            joinWith (strL " ") ((q :: parts').map (joinWith (strL " "))) := rfl
      rw [hstep, ih hrest]
      simp only [List.flatten_cons] at hflat ⊢
      rw [joinWith_append (strL " ") p (q ++ parts'.flatten) hp hflat]

/-! ## Claim C2 and C3 theorems -/

/-- Claim C2: for every text `t` and positive budget `b`, every chunk
returned by `chunk_text t b` has character length at most `b * 4`, except
possibly a chunk consisting of exactly one word whose own length exceeds
`b * 4`; `chunk_text` is a total function, so it never fails on such an
oversized word. -/
theorem chunk_text_respects_budget (t : Str) (b : Nat) (hb : 0 < b) (c : Str)
    (hc : c ∈ chunk_text t b) :
    c.length ≤ b * 4 ∨ ((pySplit c).length = 1 ∧ b * 4 < c.length) := by
  unfold chunk_text at hc
  rw [chunkLoop_eq_map] at hc
  rcases List.mem_map.mp hc with ⟨p, hp, rfl⟩
  have hpne := chunkLoopW_ne_nil (b * 4) (pySplit t) [] 0 p hp
  have hsize := chunkLoopW_size (b * 4) (pySplit t) [] 0 (Or.inl ⟨rfl, rfl⟩) p hp
  have hlen := joinWith_space_length p hpne
  rcases hsize with hle | hone
  · left
    omega
  · rcases Nat.lt_or_ge (b * 4) (joinWith (strL " ") p).length with hgt | hle2
    · right
      refine ⟨?_, hgt⟩

      obtain ⟨w, rfl⟩ : ∃ w, p = [w] := by
        cases p with
        | nil => exact absurd rfl hpne
        | cons w rest =>
          cases rest with
          | nil => exact ⟨w, rfl⟩
          | cons a as => simp [List.length_cons] at hone
      have hwmem : w ∈ pySplit t := by
        have hfl := chunkLoopW_flatten (b * 4) (pySplit t) [] 0
        have hmem : w ∈ (chunkLoopW (b * 4) (pySplit t) [] 0).flatten :=
          List.mem_flatten.mpr ⟨[w], hp, List.mem_singleton.mpr rfl⟩
        rw [hfl] at hmem
        simpa using hmem
      have hsingle : pySplit (joinWith (strL " ") [w]) = [w] := by
        refine pySplit_joinWith [w] ?_
        intro x hx
        simp only [List.mem_singleton] at hx
        rw [hx]
        exact pySplit_good t w hwmem
      rw [hsingle]
      rfl
    · left
      exact hle2

/-- Witness for C2 at a concrete input: `"ab"` is a chunk of
`chunk_text "ab cd" 1` and satisfies the budget disjunction. -/
theorem chunk_text_respects_budget_witness :
    (0 < 1 ∧ strL "ab" ∈ chunk_text (strL "ab cd") 1) ∧
      ((strL "ab").length ≤ 1 * 4 ∨
        ((pySplit (strL "ab")).length = 1 ∧ 1 * 4 < (strL "ab").length)) :=
  ⟨⟨by decide, by decide⟩,
    chunk_text_respects_budget (strL "ab cd") 1 (by decide) (strL "ab") (by decide)⟩

/-- Claim C3: joining the chunks of `chunk_text t b` with single spaces
and splitting the result on whitespace yields exactly the word sequence of
`t`: word order and word content are preserved, only inter-word
whitespace style may change. -/
theorem chunk_text_preserves_word_sequence (t : Str) (b : Nat) (hb : 0 < b) :
    pySplit (joinWith (strL " ") (chunk_text t b)) = pySplit t := by
  unfold chunk_text
  rw [chunkLoop_eq_map,
    joinWith_map_flatten _ (chunkLoopW_ne_nil (b * 4) (pySplit t) [] 0),
    chunkLoopW_flatten, List.nil_append]
  exact pySplit_joinWith (pySplit t) (pySplit_good t)

/-- Witness for C3 at a concrete input. -/
theorem chunk_text_preserves_word_sequence_witness :
    0 < 1 ∧
      pySplit (joinWith (strL " ") (chunk_text (strL "ab cd") 1)) = pySplit (strL "ab cd") :=
  ⟨by decide, chunk_text_preserves_word_sequence (strL "ab cd") 1 (by decide)⟩

/-! ## Progressive summarization: claims C6 and C10 -/

/-- The sections of `progLoop` in closed form: one per chunk, in order,
labelled from the starting index, success or error text as the
collaborator decides, and no exception escaping. -/
lemma progLoop_fst (f : Str → Except Str Str) :
    ∀ (cs : List Str) (n : Nat),
      (progLoop f n cs).1 =
        (List.enumFrom n cs).map (fun p => sectionFor p.1 (f (sumPrompt p.2))) := by
  intro cs
  induction cs with
  | nil => intro n; rfl
  | cons c cs ih =>
    intro n
    simp [progLoop, List.enumFrom, ih]

/-- `progLoop` makes exactly one completion call per chunk. -/
lemma progLoop_snd (f : Str → Except Str Str) :
    ∀ (cs : List Str) (n : Nat), (progLoop f n cs).2 = cs.length := by
  intro cs
  induction cs with
  | nil => intro n; rfl
  | cons c cs ih =>
    intro n
    simp [progLoop, ih]

/-- Claim C6: if the completion collaborator fails (with message `msg`)
exactly for the chunk at position `i` and succeeds for every other chunk,
`progressive_summarize` returns a digest with one labelled section per
chunk in order, joined by blank lines, where section `i` carries the
inline error marker with the failure's message text and every other
section carries its returned summary; `progressive_summarize` is a total
function, so no exception escapes. -/
theorem progressive_summarize_partial_failure (f : Str → Except Str Str)
    (chunks : List Str) (m : Str) (i : Nat) (msg : Str) (hi : i < chunks.length)
    (hfail : f (sumPrompt (chunks.get ⟨i, hi⟩)) = Except.error msg)
    (hok : ∀ (j : Nat) (hj : j < chunks.length), j ≠ i →
      ∃ s, f (sumPrompt (chunks.get ⟨j, hj⟩)) = Except.ok s) :
    ∃ sections : List Str,
      (progressive_summarize f chunks m).1 = joinWith nl2 sections ∧
      sections.length = chunks.length ∧
      sections[i]? =
        some (strL "**Section " ++ natStr (i + 1) ++ strL ":** Error - " ++ msg) ∧
      ∀ (j : Nat) (hj : j < chunks.length), j ≠ i →
        ∃ s, f (sumPrompt (chunks.get ⟨j, hj⟩)) = Except.ok s ∧
          sections[j]? = some (strL "**Section " ++ natStr (j + 1) ++ strL ":**\n" ++ s) := by
  refine ⟨(List.enumFrom 0 chunks).map (fun p => sectionFor p.1 (f (sumPrompt p.2))),
    ?_, ?_, ?_, ?_⟩
  · unfold progressive_summarize
    rw [progLoop_fst]
  · simp
  · have hidx : chunks[i]? = some (chunks.get ⟨i, hi⟩) := by
      rw [List.getElem?_eq_getElem hi, List.get_eq_getElem]
    rw [List.getElem?_map, List.getElem?_enumFrom, hidx]
    simp only [List.get_eq_getElem] at hfail
    simp [sectionFor, hfail]
  · intro j hj hne
    obtain ⟨s, hs⟩ := hok j hj hne
    refine ⟨s, hs, ?_⟩
    have hidx : chunks[j]? = some (chunks.get ⟨j, hj⟩) := by
      rw [List.getElem?_eq_getElem hj, List.get_eq_getElem]
    rw [List.getElem?_map, List.getElem?_enumFrom, hidx]
    simp only [List.get_eq_getElem] at hs
    simp [sectionFor, hs]

/-- Completion collaborator for the C6 witness: fails exactly on the
summarization prompt of the chunk `"B"`. -/
def failOnB : Str → Except Str Str := fun p =>
  if p = sumPrompt (strL "B") then Except.error (strL "boom") else Except.ok (strL "ok")

/-- Witness for C6 at a concrete input: three chunks, the collaborator
failing on the second only. -/
theorem progressive_summarize_partial_failure_witness :
    (failOnB (sumPrompt ([strL "A", strL "B", strL "C"].get ⟨1, by decide⟩)) =
        Except.error (strL "boom")) ∧
      ∃ sections : List Str,
        (progressive_summarize failOnB [strL "A", strL "B", strL "C"] (strL "m")).1 =
          joinWith nl2 sections ∧
        sections.length = ([strL "A", strL "B", strL "C"] : List Str).length ∧
        sections[1]? =
          some (strL "**Section " ++ natStr 2 ++ strL ":** Error - " ++ strL "boom") ∧
        ∀ (j : Nat) (hj : j < ([strL "A", strL "B", strL "C"] : List Str).length), j ≠ 1 →
          ∃ s, failOnB (sumPrompt ([strL "A", strL "B", strL "C"].get ⟨j, hj⟩)) =
              Except.ok s ∧
            sections[j]? = some (strL "**Section " ++ natStr (j + 1) ++ strL ":**\n" ++ s) :=
  ⟨by rfl,
    progressive_summarize_partial_failure failOnB [strL "A", strL "B", strL "C"]
      (strL "m") 1 (strL "boom") (by decide) (by rfl)
      (by
        intro j hj hne
        rcases j with _ | _ | _ | j
        · exact ⟨strL "ok", by rfl⟩
        · exact absurd rfl hne
        · exact ⟨strL "ok", by rfl⟩
        · simp only [List.length_cons, List.length_nil] at hj
          omega)⟩

/-- Claim C10 (implicit): the output of `progressive_summarize` is
independent of its `mode` argument — the per-chunk summarization prompt
is built from the chunk text alone and the mode is never consulted. -/
theorem progressive_summarize_mode_independent (f : Str → Except Str Str)
    (chunks : List Str) (m1 m2 : Str) :
    progressive_summarize f chunks m1 = progressive_summarize f chunks m2 := rfl

/-! ## Prompt building: claim C9 -/

/-- Counterexample to C9 as stated: at a concrete mode, context and query
with `is_summary = true`, the note and the context each occur exactly once
in the prompt, and the note's occurrence (index 62) lies strictly after
the context's occurrence (index 59) — the prompt places the note after the
context, not before it as the claim orders the parts. -/
theorem build_academic_prompt_note_after_context :
    pyFind (strL "CTX")
        (build_academic_prompt (strL "Flashcards") (strL "CTX") (strL "QRY") true) =
      some 59 ∧
    pyFind noteStr
        (build_academic_prompt (strL "Flashcards") (strL "CTX") (strL "QRY") true) =
      some 62 ∧
    countSub (strL "CTX")
        (build_academic_prompt (strL "Flashcards") (strL "CTX") (strL "QRY") true) = 1 ∧
    countSub noteStr
        (build_academic_prompt (strL "Flashcards") (strL "CTX") (strL "QRY") true) = 1 :=
  ⟨by decide, by decide, by decide, by decide⟩

/-- Amended C9: for every mode, context, query and `is_summary` flag,
`build_academic_prompt` composes the prompt in this order: the
mode-selected instruction, then the context, then (when `is_summary` is
true) the note indicating the context is an excerpt of a larger document,
then the query, then the fixed `"Answer:"` cue; the function is pure and
deterministic. -/
theorem build_academic_prompt_order (mode context query : Str) (is_summary : Bool) :
    build_academic_prompt mode context query is_summary =
      (strL "You are StudyPDF. " ++ modeInstr mode) ++
        (strL "\n\nContext: " ++ context) ++
        (if is_summary then noteStr else []) ++
        (strL "\n\nQuestion: " ++ query) ++ strL "\n\nAnswer:" := by
  cases is_summary <;> simp [build_academic_prompt, List.append_assoc]

/-! ## Greedy context assembly: claim C7 -/

/-- Counterexample to C7 as stated: with budget `max_tokens = 1` and a
paragraph `"ab"`, the cumulative length `0 + 2 + 2` equals the character
budget `1 * 4` exactly, yet the paragraph is not appended (the loop uses a
strict `<` comparison), so the returned context stays empty — the claim
says a paragraph reaching the budget exactly is still appended. -/
theorem ctxLoop_boundary_counterexample :
    ([] : Str).length + (strL "ab").length + 2 = 1 * 4 ∧
      ctxLoop (1 * 4) [(1, strL "ab")] [] = [] :=
  ⟨by decide, by decide⟩

/-- Amended C7: in the greedy assembly loop of `find_relevant_context`, a
candidate paragraph is appended exactly when the cumulative character
length — context length so far plus the paragraph's length plus 2 — is
strictly below `max_chars`; a paragraph making the sum equal to or above
the budget is not appended, and assembly stops at that paragraph. -/
theorem ctxLoop_append_iff (mc s : Nat) (p : Str) (rest : List (Nat × Str)) (ctx : Str) :
    (ctx.length + p.length + 2 < mc →
        ctxLoop mc ((s, p) :: rest) ctx = ctxLoop mc rest (ctx ++ p ++ nl2)) ∧
    (mc ≤ ctx.length + p.length + 2 →
        ctxLoop mc ((s, p) :: rest) ctx = ctx) := by
  constructor
  · intro h
    simp only [ctxLoop]
    rw [if_pos h]
  · intro h
    simp only [ctxLoop]
    rw [if_neg (Nat.not_lt.mpr h)]

/-- Witness for the amended C7 theorem: both directions applied at
concrete inputs (a fitting paragraph is appended; one exactly at the
budget is not). -/
theorem ctxLoop_append_iff_witness :
    (([] : Str).length + (strL "ab").length + 2 < 10 ∧
        ctxLoop 10 [(1, strL "ab")] [] = ctxLoop 10 [] ([] ++ strL "ab" ++ nl2)) ∧
      (4 ≤ ([] : Str).length + (strL "ab").length + 2 ∧
        ctxLoop 4 [(1, strL "ab")] [] = []) :=
  ⟨⟨by decide, (ctxLoop_append_iff 10 1 (strL "ab") [] []).1 (by decide)⟩,
    ⟨by decide, (ctxLoop_append_iff 4 1 (strL "ab") [] []).2 (by decide)⟩⟩

/-! ## Sorting stability: claim C8 -/

/-- Membership in an `insertDesc` result. -/
lemma insertDesc_mem (x : Nat × Str) :
    ∀ (l : List (Nat × Str)) (z : Nat × Str), z ∈ insertDesc x l → z = x ∨ z ∈ l := by
  intro l
  induction l with
  | nil =>
    intro z hz
    simp only [insertDesc, List.mem_singleton] at hz
    exact Or.inl hz
  | cons y ys ih =>
    intro z hz
    simp only [insertDesc] at hz
    split at hz
    · rcases List.mem_cons.mp hz with h | h
      · exact Or.inr (List.mem_cons.mpr (Or.inl h))
      · rcases ih z h with h' | h'
        · exact Or.inl h'
        · exact Or.inr (List.mem_cons.mpr (Or.inr h'))
    · rcases List.mem_cons.mp hz with h | h
      · exact Or.inl h
      · exact Or.inr h

/-- `insertDesc` preserves descending sortedness. -/
lemma insertDesc_pairwise (x : Nat × Str) :
    ∀ (l : List (Nat × Str)), l.Pairwise (fun a b => b.1 ≤ a.1) →
      (insertDesc x l).Pairwise (fun a b => b.1 ≤ a.1) := by
  intro l
  induction l with
  | nil =>
    intro _
    simp [insertDesc]
  | cons y ys ih =>
    intro hl
    rw [List.pairwise_cons] at hl
    simp only [insertDesc]
    split
    · next hxy =>
      rw [List.pairwise_cons]
      refine ⟨?_, ih hl.2⟩
      intro z hz
      rcases insertDesc_mem x ys z hz with rfl | h
      · omega
      · exact hl.1 z h
    · next hxy =>
      rw [List.pairwise_cons]
      refine ⟨?_, List.pairwise_cons.mpr hl⟩
      intro z hz
      rcases List.mem_cons.mp hz with rfl | h
      · omega
      · have := hl.1 z h
        omega

/-- The result of `sortDesc` is sorted descending by score. -/
lemma sortDesc_pairwise :
    ∀ (l : List (Nat × Str)), (sortDesc l).Pairwise (fun a b => b.1 ≤ a.1) := by
  intro l
  induction l with
  | nil => simp [sortDesc]
  | cons x xs ih => exact insertDesc_pairwise x (sortDesc xs) ih

/-- Inserting an element whose score is `s` puts it in front of every
other score-`s` element already present (they all sit behind the strictly
greater scores it skips). -/
lemma insertDesc_filter_eq (x : Nat × Str) (s : Nat) (hx : x.1 = s) :
    ∀ (l : List (Nat × Str)),
      (insertDesc x l).filter (fun p => p.1 == s) =
        x :: l.filter (fun p => p.1 == s) := by
  intro l
  induction l with
  | nil => simp [insertDesc, List.filter_cons, hx]
  | cons y ys ih =>
    simp only [insertDesc]
    split
    · next hxy =>
      have hy : (y.1 == s) = false := by
        simp only [beq_eq_false_iff_ne]
        omega
      simp only [List.filter_cons, hy, Bool.false_eq_true, if_false, ih]
    · next hxy =>
      have hxb : (x.1 == s) = true := by
        simp [hx]
      simp only [List.filter_cons, hxb, if_true]

/-- Inserting an element whose score is not `s` leaves the score-`s`
subsequence unchanged. -/
lemma insertDesc_filter_ne (x : Nat × Str) (s : Nat) (hx : x.1 ≠ s) :
    ∀ (l : List (Nat × Str)),
      (insertDesc x l).filter (fun p => p.1 == s) =
        l.filter (fun p => p.1 == s) := by
  intro l
  have hxb : (x.1 == s) = false := by
    simp only [beq_eq_false_iff_ne]
    exact hx
  induction l with
  | nil => simp [insertDesc, List.filter_cons, hxb]
  | cons y ys ih =>
    simp only [insertDesc]
    split
    · next hxy =>
      simp only [List.filter_cons, ih]
    · next hxy =>
      simp only [List.filter_cons, hxb, Bool.false_eq_true, if_false]

/-- Stability of `sortDesc`: for each score, the score-`s` elements appear
in the sorted list in exactly their original relative order. -/
lemma sortDesc_filter (s : Nat) :
    ∀ (l : List (Nat × Str)),
      (sortDesc l).filter (fun p => p.1 == s) = l.filter (fun p => p.1 == s) := by
  intro l
  induction l with
  | nil => rfl
  | cons x xs ih =>
    show (insertDesc x (sortDesc xs)).filter (fun p => p.1 == s) = _
    by_cases hx : x.1 = s
    · have hxb : (x.1 == s) = true := by simp [hx]
      rw [insertDesc_filter_eq x s hx (sortDesc xs), ih]
      simp only [List.filter_cons, hxb, if_true]
    · have hxb : (x.1 == s) = false := by
        simp only [beq_eq_false_iff_ne]
        exact hx
      rw [insertDesc_filter_ne x s hx (sortDesc xs), ih]
      simp only [List.filter_cons, hxb, Bool.false_eq_true, if_false]

/-- The assembled context extends the incoming context with precisely a
prefix of the scored list's paragraphs (each followed by a blank line). -/
lemma ctxLoop_take (mc : Nat) :
    ∀ (l : List (Nat × Str)) (ctx : Str),
      ∃ k, ctxLoop mc l ctx =
        ctx ++ ((l.take k).map (fun p => p.2 ++ nl2)).flatten := by
  intro l
  induction l with
  | nil =>
    intro ctx
    exact ⟨0, by simp [ctxLoop]⟩
  | cons sp rest ih =>
    intro ctx
    by_cases h : ctx.length + sp.2.length + 2 < mc
    · obtain ⟨k, hk⟩ := ih (ctx ++ sp.2 ++ nl2)
      refine ⟨k + 1, ?_⟩
      simp only [ctxLoop]
      rw [if_pos h, hk]
      simp [List.append_assoc]
    · refine ⟨0, ?_⟩
      simp only [ctxLoop]
      rw [if_neg h]
      simp

/-- Claim C8: the scored paragraphs of `find_relevant_context` are ordered
by score descending with a stable tie-break — for each score value, equal
(positive) scores keep their original document order, so any two
equal-score paragraphs appear in the assembled context in document order;
moreover the assembled context consists of a prefix of that sorted list. -/
theorem find_relevant_context_stable_order (text query : Str) (s : Nat) :
    List.Pairwise (fun a b => b.1 ≤ a.1) (sortDesc (scoredParagraphs text query)) ∧
    (sortDesc (scoredParagraphs text query)).filter (fun p => p.1 == s) =
      (scoredParagraphs text query).filter (fun p => p.1 == s) ∧
    ∀ ctx : Str, ∃ k : Nat,
      ctxLoop (3500 * 4) (sortDesc (scoredParagraphs text query)) ctx =
        ctx ++ (((sortDesc (scoredParagraphs text query)).take k).map
          (fun p => p.2 ++ nl2)).flatten :=
  ⟨sortDesc_pairwise _, sortDesc_filter s _,
    fun ctx => ctxLoop_take (3500 * 4) _ ctx⟩

/-! ## Strategy selection: claims C1, C4 and C5 -/

/-- Claim C1: whenever the estimated token count (`len // 4`) of the
document is at most 3500, `process_large_document` takes the direct path:
it builds the prompt from the full, unmodified document text with
`is_summary = false`, invokes the completion collaborator exactly once,
and (on success) returns `was_reduced = false`. -/
theorem process_direct_path (f : Str → Except Str Str) (t q m : Str)
    (h : estimate_tokens t ≤ 3500) :
    process_large_document f t q m =
      ((f (build_academic_prompt m t q false)).map (fun a => (a, false)), 1) := by
  simp only [process_large_document]
  rw [if_pos h]

/-- Witness for C1 at a concrete input. -/
theorem process_direct_path_witness :
    estimate_tokens (strL "hi") ≤ 3500 ∧
      process_large_document (fun _ => Except.ok (strL "ans")) (strL "hi") (strL "q")
          (strL "m") =
        (Except.ok (strL "ans", false), 1) :=
  ⟨by decide, by
    rw [process_direct_path (fun _ => Except.ok (strL "ans")) (strL "hi") (strL "q")
      (strL "m") (by decide)]
    rfl⟩

/-- Claim C5: whenever the estimated token count exceeds 3500 and the
lower-cased query contains none of the summarization keywords,
`process_large_document` takes the question path: it builds the prompt
with `is_summary = true` from the context computed by
`find_relevant_context` at budget 3500, invokes the completion
collaborator exactly once, and returns `was_reduced = true`. -/
theorem process_question_path (f : Str → Except Str Str) (t q m : Str)
    (h1 : 3500 < estimate_tokens t) (h2 : isSummaryQuery q = false) :
    process_large_document f t q m =
      ((f (build_academic_prompt m (find_relevant_context t q 3500) q true)).map
        (fun a => (a, true)), 1) := by
  simp only [process_large_document]
  rw [if_neg (Nat.not_le.mpr h1), if_neg (by rw [h2]; exact Bool.false_ne_true)]

/-- Witness for C5 at a concrete input: a 14004-character document
(estimated 3501 tokens) and the non-summarization query `"what"`. -/
theorem process_question_path_witness :
    3500 < estimate_tokens (List.replicate 14004 'a') ∧
      isSummaryQuery (strL "what") = false ∧
      process_large_document (fun _ => Except.ok (strL "ans"))
          (List.replicate 14004 'a') (strL "what") (strL "m") =
        ((Except.ok (strL "ans") : Except Str Str).map (fun a => (a, true)), 1) :=
  ⟨by simp only [estimate_tokens, List.length_replicate]; decide,
    by decide,
    process_question_path (fun _ => Except.ok (strL "ans")) (List.replicate 14004 'a')
      (strL "what") (strL "m")
      (by simp only [estimate_tokens, List.length_replicate]; decide) (by decide)⟩

/-- Claim C4: whenever the estimated token count exceeds 3500, the
lower-cased query contains a summarization keyword, and chunking at budget
3500 yields more than 5 chunks, `process_large_document` invokes the
completion collaborator exactly 5 times during summarization (one per
retained chunk; chunks 6 and beyond are dropped) plus exactly once for the
final answer, and returns `was_reduced = true`. -/
theorem process_summary_capped (f : Str → Except Str Str) (t q m : Str)
    (h1 : 3500 < estimate_tokens t) (h2 : isSummaryQuery q = true)
    (h3 : 5 < (chunk_text t 3500).length) :
    (progressive_summarize f ((chunk_text t 3500).take 5) m).2 = 5 ∧
    process_large_document f t q m =
      ((f (build_academic_prompt m
          (progressive_summarize f ((chunk_text t 3500).take 5) m).1 q true)).map
        (fun a => (a, true)), 5 + 1) := by
  have hc : (progressive_summarize f ((chunk_text t 3500).take 5) m).2 = 5 := by
    show (progLoop f 0 _).2 = 5
    rw [progLoop_snd, List.length_take]
    omega
  refine ⟨hc, ?_⟩
  simp only [process_large_document]
  rw [if_neg (Nat.not_le.mpr h1), if_pos h2, if_pos h3, hc]

/-- A 13999-character word, used to build the C4 witness document. -/
def wWit : Str := List.replicate 13999 'a'

/-- The C4 witness document: six 13999-character words separated by single
spaces (83999 characters, estimated 20999 tokens, chunking into 6 chunks
at budget 3500). -/
def tWit : Str := joinWith (strL " ") (List.replicate 6 wWit)

/-- Length of the witness word. -/
lemma wWit_len : wWit.length = 13999 := by
  unfold wWit
  simp only [List.length_replicate]

/-- The witness word is non-empty. -/
lemma wWit_ne_nil : wWit ≠ [] := by
  intro h
  have h2 := congrArg List.length h
  rw [wWit_len] at h2
  simp only [List.length_nil] at h2
  exact absurd h2 (by decide)

/-- The witness words are non-empty and whitespace-free. -/
lemma wWit_good : ∀ w ∈ List.replicate 6 wWit, w ≠ [] ∧ ∀ c ∈ w, pyWS c = false := by
  intro w hw
  rw [List.eq_of_mem_replicate hw]
  refine ⟨wWit_ne_nil, ?_⟩
  intro c hc
  have hc2 : c ∈ List.replicate 13999 'a' := hc
  rw [List.eq_of_mem_replicate hc2]
  rfl

/-- The list of six witness words is non-empty. -/
lemma wWit_six_ne_nil : List.replicate 6 wWit ≠ [] := by
  intro hcontra
  have h2 := congrArg List.length hcontra
  simp only [List.length_replicate, List.length_nil] at h2
  exact absurd h2 (by decide)

/-- Length of the witness document. -/
lemma tWit_length : tWit.length = 83999 := by
  have h := joinWith_space_length (List.replicate 6 wWit) wWit_six_ne_nil
  have hs : sumLen (List.replicate 6 wWit) = 84000 := by
    unfold sumLen
    rw [List.map_replicate, wWit_len, List.sum_replicate, smul_eq_mul]
  show (joinWith (strL " ") (List.replicate 6 wWit)).length = 83999
  omega

/-- The witness document splits into its six words. -/
lemma tWit_pySplit : pySplit tWit = List.replicate 6 wWit :=
  pySplit_joinWith (List.replicate 6 wWit) wWit_good

/-- Unfolding equation for the cons case of `chunkLoop`. -/
lemma chunkLoop_cons (mc : Nat) (w : Str) (ws cur : List Str) (len : Nat) :
    chunkLoop mc (w :: ws) cur len =
      if mc < len + (w.length + 1) ∧ cur ≠ [] then
        joinWith (strL " ") cur :: chunkLoop mc ws [w] (w.length + 1)
      else chunkLoop mc ws (cur ++ [w]) (len + (w.length + 1)) := rfl

/-- Chunking the remaining witness words, with one witness word already in
the accumulator, produces one chunk per remaining word plus one. -/
lemma chunkLoop_wWit :
    ∀ n : Nat, (chunkLoop 14000 (List.replicate n wWit) [wWit] 14000).length = n + 1 := by
  intro n
  induction n with
  | zero => rfl
  | succ n ih =>
    rw [List.replicate_succ, chunkLoop_cons,
      if_pos ⟨by have := wWit_len; omega, List.cons_ne_nil wWit []⟩,
      List.length_cons, wWit_len]
    have h14 : (13999 : Nat) + 1 = 14000 := by norm_num
    rw [h14, ih]

/-- The witness document chunks into exactly six chunks at budget 3500. -/
lemma chunk_text_tWit : (chunk_text tWit 3500).length = 6 := by
  unfold chunk_text
  rw [tWit_pySplit]
  have h14 : (3500 * 4 : Nat) = 14000 := by norm_num
  rw [h14, show (6 : Nat) = 5 + 1 from rfl, List.replicate_succ, chunkLoop_cons,
    if_neg (fun h => h.2 rfl), List.nil_append]
  have heq : (0 : Nat) + (wWit.length + 1) = 14000 := by
    rw [wWit_len]
  rw [heq, chunkLoop_wWit 5]

/-- Witness for C4 at a concrete input: a six-chunk document and the query
`"please summarize this"`. -/
theorem process_summary_capped_witness :
    3500 < estimate_tokens tWit ∧
      isSummaryQuery (strL "please summarize this") = true ∧
      5 < (chunk_text tWit 3500).length ∧
      ((progressive_summarize (fun _ => Except.ok (strL "ans"))
          ((chunk_text tWit 3500).take 5) (strL "m")).2 = 5 ∧
        process_large_document (fun _ => Except.ok (strL "ans")) tWit
            (strL "please summarize this") (strL "m") =
          (((fun _ => Except.ok (strL "ans") : Str → Except Str Str)
              (build_academic_prompt (strL "m")
                (progressive_summarize (fun _ => Except.ok (strL "ans"))
                  ((chunk_text tWit 3500).take 5) (strL "m")).1
                (strL "please summarize this") true)).map (fun a => (a, true)),
            5 + 1)) :=
  ⟨by rw [estimate_tokens, tWit_length]; decide,
    by decide,
    by rw [chunk_text_tWit]; decide,
    process_summary_capped (fun _ => Except.ok (strL "ans")) tWit
      (strL "please summarize this") (strL "m")
      (by rw [estimate_tokens, tWit_length]; decide)
      (by decide)
      (by rw [chunk_text_tWit]; decide)⟩
